import Mathlib

/-!
Verification development for the fs-text-search-mcp repository: a shallow
embedding of the live-indexing subsystem (file filter, file loader, text
index over the tantivy engine, update worker, directory watcher, tool
server) together with theorems settling the frozen specification claims.

Machine strings are modelled as Lean `String`; Rust `Path` values are
modelled by their string form, with the component / extension logic of
`std::path` embedded explicitly.  The tantivy engine is modelled at the
granularity the code relies on: committed segments hold documents with
tombstone flags, the writer session is a list of pending operations
(`add_document` / `delete_term`), deletes apply in opstamp order at
commit, and term dictionaries enumerate the terms of committed segments.
-/

deriving instance DecidableEq for Except

/- ===================== path and string helpers ===================== -/

/-- Splitting a character list at a separator character (used to model
`std::path` components and the tokenizer).  Structural recursion so the
kernel can evaluate it on concrete inputs. -/
def splitOnChar (sep : Char) : List Char → List (List Char)
  | [] => [[]]
  | c :: rest =>
    match splitOnChar sep rest with
    | [] => if c = sep then [[], []] else [[c]]
    | g :: gs => if c = sep then [] :: g :: gs else (c :: g) :: gs

/-- Model of Rust `str::starts_with` on strings, via `List.isPrefixOf`
on the character lists. -/
def strStartsWith (s pre : String) : Bool :=
  List.isPrefixOf pre.toList s.toList

/-- Characters after the last '.' of a character list; `none` when the
list contains no '.'.  This is the core of Rust `Path::extension`. -/
def afterLastDot : List Char → Option (List Char)
  | [] => none
  | c :: rest =>
    match afterLastDot rest with
    | some t => some t
    | none => if c = '.' then some rest else none

/-- Normal components of a path string: slash-separated segments with
empty segments and `.` segments dropped, as `std::path::Components`
yields them. -/
def pathComponents (path : String) : List String :=
  ((splitOnChar '/' path.toList).map String.mk).filter
    (fun c => !(c == "") && !(c == "."))

/-- Model of Rust `Path::file_name`: the last normal component, and
`none` when there is none or it is the parent-directory component. -/
def fileName (path : String) : Option String :=
  match (pathComponents path).getLast? with
  | none => none
  | some c => if c = ".." then none else some c

/-- Model of Rust `Path::extension`: the substring of the final
component after its last '.', where a leading '.' of the component does
not count as an extension separator (so dotfiles have no extension). -/
def extension (path : String) : Option String :=
  match fileName path with
  | none => none
  | some name =>
    match name.toList with
    | [] => none
    | c0 :: rest =>
      let body := if c0 = '.' then rest else c0 :: rest
      (afterLastDot body).map String.mk

/- ===================== file filter (src/file/file_filter.rs) ===================== -/

/-- Embedding of `ExtensionFileFilter::is_target`: accept the path iff
`path.extension()` exists (and converts to a string, which in the string
model always succeeds) and the allow-list contains it. -/
def ExtensionFileFilter.is_target (allowed_extensions : List String) (path : String) : Bool :=
  match extension path with
  | some ext => allowed_extensions.contains ext
  | none => false

/-- Written from the words of claim C6 only, for comparison with the
code: the extension is the substring after the last '.' in the final
path component, empty if the component contains no '.'; in particular a
final component `.ext` would have extension `ext`. -/
def claimedExtension (path : String) : String :=
  match ((splitOnChar '/' path.toList).map String.mk).getLast? with
  | none => ""
  | some comp =>
    match afterLastDot comp.toList with
    | some t => String.mk t
    | none => ""

/-- Filter predicate exactly as claim C6 words it. -/
def is_target_claimed (allowed_extensions : List String) (path : String) : Bool :=
  allowed_extensions.contains (claimedExtension path)

/- ===================== files, operations, loaders ===================== -/

/-- Embedding of `File` (src/search/file.rs). -/
structure File where
  path : String
  content : String
deriving DecidableEq

/-- Embedding of the `FileOperation` algebra (src/search/file.rs). -/
inductive FileOperation
  | fileCreated (path : String)
  | fileModified (path : String)
  | fileRenamed (old_path new_path : String)
  | directoryRenamed (old_path new_path : String)
  | fileDeleted (path : String)
  | directoryDeleted (path : String)
deriving DecidableEq

/-- Embedding of the `FileLoader` trait (src/search/file.rs): `load_file`
may fail with an error message, `load_directory` enumerates results
lazily (modelled as the list of produced results). -/
structure Loader where
  load_file : String → Except String File
  load_directory : String → List (Except String File)

/- ===================== lazy file loader (src/file/lazy_file_loader.rs) ===================== -/

/-- Hardcoded extension check of the lazy loader, embedding
`is_text_file`: the path extension must be one of txt, md, rs, toml,
json. -/
def is_text_file (path : String) : Bool :=
  match extension path with
  | some ext => ["txt", "md", "rs", "toml", "json"].contains ext
  | none => false

/-- One entry of the recursive directory walk (`WalkDir`), after the
`filter_map(|e| e.ok())` step: a path and whether `path().is_file()`
holds. -/
structure DirEntry where
  path : String
  isFile : Bool
deriving DecidableEq

/-- Embedding of `LazyFileLoader::load_directory`: the walk entries are
given as a list, the filesystem read as a function; the walker keeps
regular files, keeps only `is_text_file` paths, then reads each. -/
def LazyFileLoader.load_directory (fsRead : String → Except String String)
    (entries : List DirEntry) : List (Except String File) :=
  ((entries.filter (fun e => e.isFile)).filter (fun e => is_text_file e.path)).map
    (fun e => (fsRead e.path).map (fun content => File.mk e.path content))

/- ===================== retrying reader (src/file/read_file.rs) ===================== -/

/-- Loop body of `read_file_with_retry`.  The filesystem is an oracle
giving the outcome of each attempt (attempts are numbered from 0 as in
the Rust `for attempt in 0..=max_retries`).  `remaining` counts the
attempts still allowed after the current one, so `attempt < max_retries`
in the source corresponds to `remaining = r + 1` here.  Returns the
result, the list of sleeps performed (in milliseconds), and the number
of read attempts made. -/
def retryAux (fs : Nat → Except String String) (max_retries : Nat) :
    Nat → Nat → Except String String × List Nat × Nat
  | attempt, remaining =>
    match fs attempt with
    | .ok content => (.ok content, [], attempt + 1)
    | .error e =>
      match remaining with
      | 0 =>
        (.error ("Failed to read file after " ++ toString (max_retries + 1)
          ++ " attempts: " ++ e), [], attempt + 1)
      | r + 1 =>
        let tail := retryAux fs max_retries (attempt + 1) r
        (tail.1, 10 * (attempt + 1) :: tail.2.1, tail.2.2)

/-- Embedding of `read_file_with_retry`: start at attempt 0 with
`max_retries` further attempts allowed. -/
def read_file_with_retry (fs : Nat → Except String String) (max_retries : Nat) :
    Except String String × List Nat × Nat :=
  retryAux fs max_retries 0 max_retries

/-- Embedding of `path_to_file`: read with 3 retries and pair the path
with the content. -/
def path_to_file (fs : Nat → Except String String) (path : String) : Except String File :=
  ((read_file_with_retry fs 3).1).map (fun content => File.mk path content)

/- ===================== text index (src/search/text_index.rs) ===================== -/

/-- One pending operation of the tantivy writer session. -/
inductive WriterOp
  | addDocument (f : File)
  | deleteTerm (path : String)
deriving DecidableEq

/-- One document slot of a committed segment, with its tombstone flag
(tantivy deletes are tombstones; the term stays in the segment term
dictionary). -/
structure SegDoc where
  file : File
  alive : Bool
deriving DecidableEq

/-- A committed segment: its documents in insertion order. -/
abbrev Segment := List SegDoc

/-- Embedding of `TextIndex`: the committed segments (what the reader
and any fresh reader see), the uncommitted writer session, and the
`pending_operations` counter. -/
structure TextIndex where
  segments : List Segment
  writerOps : List WriterOp
  pending_operations : Nat
deriving DecidableEq

/-- The in-memory index created by `TextIndex::new`. -/
def emptyIndex : TextIndex :=
  { segments := [], writerOps := [], pending_operations := 0 }

/-- Documents visible to searches: alive documents of committed
segments, in segment order. -/
def liveFiles (i : TextIndex) : List File :=
  ((i.segments.flatten).filter (fun d => d.alive)).map (fun d => d.file)

/-- Paths of the visible documents. -/
def livePaths (i : TextIndex) : List String :=
  (liveFiles i).map File.path

/-- Embedding of `TextIndex::add_doc`: append an `add_document` to the
writer session and increment `pending_operations`. -/
def add_doc (i : TextIndex) (f : File) : TextIndex :=
  { i with writerOps := i.writerOps ++ [WriterOp.addDocument f],
           pending_operations := i.pending_operations + 1 }

/-- Embedding of `TextIndex::replace_doc`: `delete_term` on the path
then `add_document`, one `pending_operations` increment. -/
def replace_doc (i : TextIndex) (f : File) : TextIndex :=
  { i with writerOps := i.writerOps ++ [WriterOp.deleteTerm f.path, WriterOp.addDocument f],
           pending_operations := i.pending_operations + 1 }

/-- Embedding of `TextIndex::delete_doc`: `delete_term` on the path. -/
def delete_doc (i : TextIndex) (p : String) : TextIndex :=
  { i with writerOps := i.writerOps ++ [WriterOp.deleteTerm p],
           pending_operations := i.pending_operations + 1 }

/-- Term dictionary of one committed segment: each `file_path` term
once, including terms of tombstoned documents. -/
def termDict (s : Segment) : List String :=
  (s.map (fun d => d.file.path)).dedup

/-- Terms enumerated by `delete_docs_by_path_prefix`: for each segment
reader, the dictionary terms whose UTF-8 form starts with the given
prefix. -/
def matchingTerms (i : TextIndex) (pre : String) : List String :=
  i.segments.flatMap (fun s => (termDict s).filter (fun t => strStartsWith t pre))

/-- Embedding of `TextIndex::delete_docs_by_path_prefix`: obtain a fresh
reader over the committed segments, stream each segment's `file_path`
term dictionary, emit a `delete_term` for every term starting with the
prefix, and return the count; `pending_operations` grows by the count
when it is positive. -/
def delete_docs_by_path_prefix (i : TextIndex) (pre : String) : TextIndex × Nat :=
  let ts := matchingTerms i pre
  ({ i with writerOps := i.writerOps ++ ts.map WriterOp.deleteTerm,
            pending_operations :=
              if 0 < ts.length then i.pending_operations + ts.length
              else i.pending_operations },
   ts.length)

/-- Tombstone every document holding the deleted term. -/
def killDoc (p : String) (d : SegDoc) : SegDoc :=
  if d.file.path = p then { d with alive := false } else d

/-- Effect of one writer-session operation at commit time, acting on the
already-committed segments and on the new segment built from this
session's additions.  Sequential application realizes tantivy's opstamp
rule: a `delete_term` affects exactly the documents added before it. -/
def applyWriterOp (st : List Segment × Segment) : WriterOp → List Segment × Segment
  | .addDocument f => (st.1, st.2 ++ [SegDoc.mk f true])
  | .deleteTerm p => (st.1.map (List.map (killDoc p)), st.2.map (killDoc p))

/-- Embedding of `TextIndex::commit`: a no-op when `pending_operations`
is zero; otherwise apply the writer session, publish the new segment,
clear the session and the counter (the reader reload makes the result
visible, which `liveFiles` reflects). -/
def commitIndex (i : TextIndex) : TextIndex :=
  if 0 < i.pending_operations then
    let st := i.writerOps.foldl applyWriterOp (i.segments, [])
    { segments := st.1 ++ [st.2], writerOps := [], pending_operations := 0 }
  else i

/-- Search limit `SEARCH_FILE_LIMIT`. -/
def SEARCH_FILE_LIMIT : Nat := 10

/-- Character-list split at every non-alphanumeric character, for the
tokenizer model. -/
def splitNonAlphanum : List Char → List (List Char)
  | [] => [[]]
  | c :: rest =>
    match splitNonAlphanum rest with
    | [] => [[c]]
    | h :: hs => if c.isAlphanum then (c :: h) :: hs else [] :: h :: hs

/-- Default-tokenizer model: lowercase, split on non-alphanumeric
characters, drop empty tokens. -/
def tokenize (s : String) : List String :=
  ((splitNonAlphanum (s.toList.map Char.toLower)).map String.mk).filter
    (fun t => !(t == ""))

/-- Query model for the default parser scoped to `content`: the query is
tokenized and a document matches when any query token occurs among its
content tokens. -/
def matchesQuery (keyword content : String) : Bool :=
  (tokenize keyword).any (fun t => (tokenize content).contains t)

/-- JSON serialization of the stored fields of a hit (`doc.to_json`):
only `file_path` is stored. -/
def docToJson (f : File) : String :=
  "\x7b\"file_path\":[\"" ++ f.path ++ "\"]\x7d"

/-- Embedding of `TextIndex::search`: matching visible documents, top
`SEARCH_FILE_LIMIT` of them, serialized to JSON. -/
def searchIndex (i : TextIndex) (keyword : String) : List String :=
  (((liveFiles i).filter (fun f => matchesQuery keyword f.content)).take
    SEARCH_FILE_LIMIT).map docToJson

/- ===================== server tool (src/servers/search.rs) ===================== -/

/-- Embedding of `SearchServer::search_index`: run the search under the
index lock; zero hits is the user-visible error, otherwise the hits are
joined with ", " inside brackets. -/
def search_index_tool (i : TextIndex) (keyword : String) : Except String String :=
  let results := searchIndex i keyword
  if results.isEmpty then Except.error "No results found."
  else Except.ok ("[" ++ String.intercalate ", " results ++ "]")

/- ===================== update worker (src/search/index_operation.rs) ===================== -/

/-- Result of acquiring the Text Index mutex: `ok` with the guard, or
`error` when a prior holder panicked; the poisoned error still carries
the inner state (`into_inner`). -/
def lockIndex (poisoned : Bool) (i : TextIndex) : Except TextIndex TextIndex :=
  if poisoned then Except.error i else Except.ok i

/-- Flush body for a single operation, mirroring the `match op` arms of
`process_operations`.  A `load_file` failure propagates (the `?` in the
source) and leaves the index as it was; inside `DirectoryRenamed` the
per-file results are `filter_map(Result::ok)`-ed and `add_doc` failures
are only logged, so that arm never fails. -/
def applyOp (flt : String → Bool) (ldr : Loader) (i : TextIndex) :
    FileOperation → Except String TextIndex
  | .fileCreated p =>
    if flt p then
      match ldr.load_file p with
      | .ok f => Except.ok (add_doc i f)
      | .error e => Except.error e
    else Except.ok i
  | .fileModified p =>
    if flt p then
      match ldr.load_file p with
      | .ok f => Except.ok (replace_doc i f)
      | .error e => Except.error e
    else Except.ok i
  | .fileDeleted p => Except.ok (delete_doc i p)
  | .fileRenamed op np =>
    match flt op, flt np with
    | true, true =>
      match ldr.load_file np with
      | .ok f => Except.ok (add_doc (delete_doc i op) f)
      | .error e => Except.error e
    | true, false => Except.ok (delete_doc i op)
    | false, true =>
      match ldr.load_file np with
      | .ok f => Except.ok (add_doc i f)
      | .error e => Except.error e
    | false, false => Except.ok i
  | .directoryDeleted p => Except.ok ( delete_docs_by_path_prefix i p).1
  | .directoryRenamed op np =>
    let i1 := ( delete_docs_by_path_prefix i op).1
    let files := ((ldr.load_directory np).filterMap Except.toOption).filter
      (fun f => flt f.path)
    Except.ok (files.foldl add_doc i1)

/-- The `for op in operations` loop of `process_operations`: apply each
operation in order; on the first failure stop, keeping the state built
so far (the index lives behind the mutex, so mutations made before the
failing operation persist, uncommitted). -/
def processOps (flt : String → Bool) (ldr : Loader) :
    TextIndex → List FileOperation → TextIndex × Except String Unit
  | i, [] => (i, Except.ok ())
  | i, op :: rest =>
    match applyOp flt ldr i op with
    | .ok i2 => processOps flt ldr i2 rest
    | .error e => (i, Except.error e)

/-- Embedding of the `process_operations` closure body after a
successful lock: run the loop, then `commit` only when the loop
completed without error (an error returns through `?` before the
commit call). -/
def process_operations (flt : String → Bool) (ldr : Loader) (i : TextIndex)
    (ops : List FileOperation) : TextIndex × Except String Unit :=
  match processOps flt ldr i ops with
  | (i2, .ok _) => (commitIndex i2, Except.ok ())
  | (i2, .error e) => (i2, Except.error e)

/-- Embedding of the `process_operations` closure including its
`if let Ok(mut index) = text_index.lock()` guard: when the lock is
poisoned the `else` branch only logs and the closure returns `Ok(())`
without touching the index or the operations. -/
def process_operations_locked (flt : String → Bool) (ldr : Loader) (poisoned : Bool)
    (i : TextIndex) (ops : List FileOperation) : TextIndex × Except String Unit :=
  match lockIndex poisoned i with
  | .ok j => process_operations flt ldr j ops
  | .error _ => (i, Except.ok ())

/-- Embedding of `IndexOperation::initialize_index`: the lock is taken
with explicit poison recovery (`Err(poisoned) => poisoned.into_inner()`),
the directory enumeration keeps `Ok` results passing the filter, each is
added, then `commit`. -/
def initialize_index (flt : String → Bool) (ldr : Loader) (target_dir : String)
    (poisoned : Bool) (i : TextIndex) : TextIndex :=
  let j := match lockIndex poisoned i with
           | .ok g => g
           | .error p => p
  let files := ((ldr.load_directory target_dir).filterMap Except.toOption).filter
    (fun f => flt f.path)
  commitIndex (files.foldl add_doc j)

/- ===================== worker receive loop (subscribe_operations) ===================== -/

/-- Outcome of one channel receive in the worker loop. -/
inductive RecvResult
  | received (op : FileOperation)
  | timeout
  | disconnected
deriving DecidableEq

/-- Batch-coalescing constants of the worker. -/
def WAIT_MILLIS_FOR_NEXT_UPDATE_TO_BULK : Nat := 500

/-- Maximum batch size before an immediate flush. -/
def MAX_BULK_OPERATION_SIZE : Nat := 10

/-- Timeout chosen for the next receive: block indefinitely (`none`,
`recv()`) on an empty buffer, otherwise wait 500 ms (`recv_timeout`). -/
def recvTimeoutMillis (buffer : List FileOperation) : Option Nat :=
  if buffer.isEmpty then none else some WAIT_MILLIS_FOR_NEXT_UPDATE_TO_BULK

/-- Worker-loop state: the local batch buffer, the batches handed to the
flush handler so far (`handle_operations` clears the buffer after each),
and whether the loop has exited. -/
structure WorkerState where
  buffer : List FileOperation
  flushedBatches : List (List FileOperation)
  exited : Bool
deriving DecidableEq

/-- One iteration of the `subscribe_operations` loop. -/
def workerStep (s : WorkerState) : RecvResult → WorkerState
  | .received op =>
    let buf := s.buffer ++ [op]
    if MAX_BULK_OPERATION_SIZE ≤ buf.length then
      { s with buffer := [], flushedBatches := s.flushedBatches ++ [buf] }
    else { s with buffer := buf }
  | .timeout =>
    if s.buffer.isEmpty then s
    else { s with buffer := [], flushedBatches := s.flushedBatches ++ [s.buffer] }
  | .disconnected =>
    if s.buffer.isEmpty then { s with exited := true }
    else { s with buffer := [], flushedBatches := s.flushedBatches ++ [s.buffer],
                  exited := true }

/-- Run the worker loop over a sequence of receive outcomes, starting
from the empty buffer; after the loop breaks further outcomes are
ignored. -/
def workerRun (events : List RecvResult) : WorkerState :=
  events.foldl (fun s e => if s.exited then s else workerStep s e)
    { buffer := [], flushedBatches := [], exited := false }

/-- Operations received before the loop exits (the channel disconnect). -/
def opsUntilExit : List RecvResult → List FileOperation
  | [] => []
  | .disconnected :: _ => []
  | .received op :: rest => op :: opsUntilExit rest
  | .timeout :: rest => opsUntilExit rest

/- ===================== watcher (src/file/file_watcher.rs) ===================== -/

/-- Kinds of debounced notify events the converter distinguishes. -/
inductive DebEventKind
  | create
  | modifyData
  | modifyNameBoth
  | modifyOther
  | removeFile
  | removeFolder
  | other
deriving DecidableEq

/-- A debounced event: its kind and its path list. -/
structure DebEvent where
  kind : DebEventKind
  paths : List String
deriving DecidableEq

/-- Embedding of `normalize_notify_path`: drop current-directory
components, keep the rest (and a leading root) joined back with '/'. -/
def normalize_notify_path (path : String) : String :=
  let comps := ((splitOnChar '/' path.toList).map String.mk).filter
    (fun c => !(c == "") && !(c == "."))
  (if strStartsWith path "/" then "/" else "") ++ String.intercalate "/" comps

/-- Conversion of one debounced event into file operations, mirroring
the `match event.kind` of `process_events`; `isFile` models the
`new.is_file()` filesystem probe.  A rename with a missing side yields
an error result. -/
def processEvent (isFile : String → Bool) (e : DebEvent) :
    List (Except String FileOperation) :=
  match e.kind with
  | .create => e.paths.map (fun p =>
      Except.ok (FileOperation.fileCreated (normalize_notify_path p)))
  | .modifyData => e.paths.map (fun p =>
      Except.ok (FileOperation.fileModified (normalize_notify_path p)))
  | .modifyNameBoth =>
    match e.paths.get? 0, e.paths.get? 1 with
    | some oldp, some newp =>
      if isFile newp then
        [Except.ok (FileOperation.fileRenamed
          (normalize_notify_path oldp) (normalize_notify_path newp))]
      else
        [Except.ok (FileOperation.directoryRenamed
          (normalize_notify_path oldp) (normalize_notify_path newp))]
    | _, _ => [Except.error "Rename event missing paths"]
  | .modifyOther => []
  | .removeFile => e.paths.map (fun p =>
      Except.ok (FileOperation.fileDeleted (normalize_notify_path p)))
  | .removeFolder => e.paths.map (fun p =>
      Except.ok (FileOperation.directoryDeleted (normalize_notify_path p)))
  | .other => []

/-- The `collect::<Result<Vec<_>>>()` step: all operations, or the first
error. -/
def collectResults : List (Except String FileOperation) →
    Except String (List FileOperation)
  | [] => Except.ok []
  | .error e :: _ => Except.error e
  | .ok a :: rest => (collectResults rest).map (fun l => a :: l)

/-- Delivery loop `for op in ops { handler(&op)?; }`: the operations
actually handed to the handler, and the overall result. -/
def deliverAll (handler : FileOperation → Except String Unit) :
    List FileOperation → List FileOperation × Except String Unit
  | [] => ([], Except.ok ())
  | op :: rest =>
    match handler op with
    | .ok _ =>
      let r := deliverAll handler rest
      (op :: r.1, r.2)
    | .error e => ([op], Except.error e)

/-- Embedding of `process_events`: convert every event of the batch,
collect (failing on the first malformed event before anything is
delivered), then deliver each operation to the handler in order. -/
def process_events (isFile : String → Bool)
    (handler : FileOperation → Except String Unit) (events : List DebEvent) :
    List FileOperation × Except String Unit :=
  match collectResults (events.flatMap (processEvent isFile)) with
  | .error e => ([], Except.error e)
  | .ok ops => deliverAll handler ops

/-- Messages the watcher event loop reacts to. -/
inductive LoopMsg
  | eventsBatch (events : List DebEvent)
  | watchErrors
  | timeout
  | disconnected
deriving DecidableEq

/-- Control decision of one `event_loop` iteration: `true` means the
loop continues with the next receive.  Processing errors of an event
batch are logged and do not stop the loop. -/
def event_loop_continues (stopRequested : Bool) (m : LoopMsg) : Bool :=
  if stopRequested then false
  else
    match m with
    | .eventsBatch _ => true
    | .watchErrors => true
    | .timeout => true
    | .disconnected => false

/- ===================== counting views of the index (used by C4, C5) ===================== -/

/-- Number of alive documents with the given path in a document list. -/
def pathCountP (p : String) (l : List SegDoc) : Nat :=
  List.countP (fun d => d.alive && d.file.path == p) l

/-- Number of visible documents of the index with the given path. -/
def pathCount (i : TextIndex) (p : String) : Nat :=
  pathCountP p i.segments.flatten

/-- Count over an intermediate commit state (old segments plus the new
segment under construction). -/
def stCount (st : List Segment × Segment) (p : String) : Nat :=
  pathCountP p (st.1.flatten ++ st.2)

/-- Abstract effect of one writer operation on the count of one path. -/
def traceStep (p : String) (n : Nat) : WriterOp → Nat
  | .addDocument f => if f.path = p then n + 1 else n
  | .deleteTerm q => if q = p then 0 else n

/-- Abstract effect of a writer session on the count of one path. -/
def traceCount (n : Nat) (ops : List WriterOp) (p : String) : Nat :=
  ops.foldl (traceStep p) n

/-- Well-formedness tying the pending counter to the session: pending
work is recorded whenever the session is non-empty.  Every index the
worker produces satisfies it. -/
def wfIndex (i : TextIndex) : Prop :=
  i.writerOps ≠ [] → 0 < i.pending_operations

/- ===================== concrete fixtures for witnesses and counterexamples ===================== -/

/-- The production filter configured with the allow-list txt only. -/
def fltTxt : String → Bool := ExtensionFileFilter.is_target ["txt"]

/-- A loader whose reads always succeed with fixed content. -/
def ldrConst : Loader :=
  { load_file := fun p => Except.ok (File.mk p "alpha beta"),
    load_directory := fun _ => [] }

/-- A loader failing exactly on `a.txt` (a read that keeps failing after
all retries). -/
def ldrFailA : Loader :=
  { load_file := fun p =>
      if p = "a.txt" then Except.error "permission denied"
      else Except.ok (File.mk p "beta"),
    load_directory := fun _ => [] }

/-- An index holding one committed document under `/d`. -/
def oneDocIdx : TextIndex :=
  { segments := [[SegDoc.mk (File.mk "/d/a.txt" "alpha beta") true]],
    writerOps := [], pending_operations := 0 }

/-- The index state after the worker applied `FileCreated "a.txt"` (via
`ldrConst`) but before the commit. -/
def uncommittedA : TextIndex :=
  { segments := [],
    writerOps := [WriterOp.addDocument (File.mk "a.txt" "alpha beta")],
    pending_operations := 1 }

/-- The index state after the worker applied `FileCreated "b.txt"` (via
`ldrFailA`) but before the commit. -/
def uncommittedB : TextIndex :=
  { segments := [],
    writerOps := [WriterOp.addDocument (File.mk "b.txt" "beta")],
    pending_operations := 1 }

/- ===================== claim C2 ===================== -/

/-- Claim C2 counterexample: with the lock poisoned, the worker's flush
closure returns without touching the index, so a `FileCreated` enqueued
after the poisoning is not added and not visible after the batch — the
index is still empty. -/
theorem claim_C2_counterexample :
    process_operations_locked fltTxt ldrConst true emptyIndex
      [FileOperation.fileCreated "a.txt"] = (emptyIndex, Except.ok ()) ∧
    livePaths emptyIndex = [] := by
  exact ⟨rfl, rfl⟩

/-- Claim C2 amended: when the Text Index mutex is poisoned the worker
does NOT recover — `lock()` returns `Err`, the closure only logs and
drops the whole batch, leaving the index untouched; poison recovery via
`into_inner` exists only in `initialize_index`, whose behaviour is
independent of the poison flag. -/
theorem claim_C2_amended (flt : String → Bool) (ldr : Loader) :
    (∀ i ops, process_operations_locked flt ldr true i ops = (i, Except.ok ())) ∧
    (∀ dir i, initialize_index flt ldr dir true i = initialize_index flt ldr dir false i) := by
  exact ⟨fun i ops => rfl, fun dir i => rfl⟩

/- ===================== claim C9 ===================== -/

/-- Claim C9: for every keyword whose search yields at least one hit the
tool returns the single string of the JSON hits joined by ", " inside
brackets, with at most 10 hits; it fails with "No results found."
exactly when the search yields zero hits. -/
theorem claim_C9 (i : TextIndex) (kw : String) :
    (searchIndex i kw ≠ [] →
      search_index_tool i kw =
        Except.ok ("[" ++ String.intercalate ", " (searchIndex i kw) ++ "]") ∧
      (searchIndex i kw).length ≤ SEARCH_FILE_LIMIT) ∧
    (search_index_tool i kw = Except.error "No results found." ↔
      searchIndex i kw = []) := by
  constructor
  · intro h
    constructor
    · unfold search_index_tool
      rw [if_neg (by simpa [List.isEmpty_iff] using h)]
    · unfold searchIndex
      rw [List.length_map]
      exact List.length_take_le _ _
  · unfold search_index_tool
    by_cases h : searchIndex i kw = []
    · rw [if_pos (by simpa [List.isEmpty_iff] using h)]
      simp [h]
    · rw [if_neg (by simpa [List.isEmpty_iff] using h)]
      simp [h]

/-- Claim C9 witness: on an index holding one committed document whose
content contains "alpha", the tool returns the bracketed JSON list. -/
theorem claim_C9_witness :
    searchIndex oneDocIdx "alpha" ≠ [] ∧
    search_index_tool oneDocIdx "alpha" =
      Except.ok ("[" ++ String.intercalate ", " (searchIndex oneDocIdx "alpha") ++ "]") := by
  refine ⟨by decide, ?_⟩
  exact ((claim_C9 oneDocIdx "alpha").1 (by decide)).1

/- ===================== claim C3 ===================== -/

/-- Inversion of `Except.map` hitting `ok`. -/
theorem exceptMap_eq_ok {α β : Type} {g : α → β} {x : Except String α} {b : β} :
    x.map g = Except.ok b ↔ ∃ a, x = Except.ok a ∧ g a = b := by
  cases x <;> simp [Except.map]

/-- Claim C3 counterexample: a regular file `notes.log` encountered by
the walk produces no result at all — `load_directory` applies its own
hardcoded extension filter (`is_text_file`), contradicting "every
regular file under the directory, regardless of extension, produces a
result". -/
theorem claim_C3_counterexample :
    LazyFileLoader.load_directory (fun _ => Except.ok "data")
      [DirEntry.mk "notes.log" true] = [] ∧
    (DirEntry.mk "notes.log" true).isFile = true := by
  exact ⟨by decide, rfl⟩

/-- Claim C3 amended: `load_directory` yields one `(path, content)`
result per regular file of the walk whose extension is in the hardcoded
allow-list txt, md, rs, toml, json (the `is_text_file` check), skipping
non-files and all other extensions; it applies no configured Filter. -/
theorem claim_C3_amended (fsRead : String → Except String String)
    (entries : List DirEntry) (p c : String) :
    (Except.ok (File.mk p c) ∈ LazyFileLoader.load_directory fsRead entries ↔
      ∃ e ∈ entries, e.isFile = true ∧ e.path = p ∧ is_text_file p = true ∧
        fsRead p = Except.ok c) ∧
    (LazyFileLoader.load_directory fsRead entries).length =
      ((entries.filter (fun e => e.isFile)).filter
        (fun e => is_text_file e.path)).length := by
  constructor
  · unfold LazyFileLoader.load_directory
    rw [List.mem_map]
    constructor
    · rintro ⟨e, he, hmap⟩
      rw [List.mem_filter] at he
      rcases he with ⟨he1, he2⟩
      rw [List.mem_filter] at he1
      rcases exceptMap_eq_ok.1 hmap with ⟨a, ha, hfa⟩
      rcases File.mk.injEq .. ▸ hfa with h
      have hp : e.path = p := (File.mk.injEq .. ▸ hfa).1
      have hc : a = c := (File.mk.injEq .. ▸ hfa).2
      exact ⟨e, he1.1, he1.2, hp, hp ▸ he2, by rw [← hp, ha, hc]⟩
    · rintro ⟨e, he, hfile, hp, htext, hread⟩
      refine ⟨e, ?_, ?_⟩
      · rw [List.mem_filter]
        exact ⟨List.mem_filter.2 ⟨he, hfile⟩, by rw [hp]; exact htext⟩
      · rw [hp, hread]
        rfl
  · unfold LazyFileLoader.load_directory
    rw [List.length_map]

/-- Claim C3 witness: a txt file read successfully appears among the
loader results. -/
theorem claim_C3_witness :
    Except.ok (File.mk "a.txt" "data") ∈
      LazyFileLoader.load_directory (fun _ => Except.ok "data")
        [DirEntry.mk "a.txt" true, DirEntry.mk "skip.log" true] := by
  exact (claim_C3_amended (fun _ => Except.ok "data")
    [DirEntry.mk "a.txt" true, DirEntry.mk "skip.log" true] "a.txt" "data").1.2
    ⟨DirEntry.mk "a.txt" true, by decide, rfl, rfl, by decide, rfl⟩

/- ===================== claim C6 ===================== -/

/-- A character list has no suffix after a last dot exactly when it has
no dot. -/
theorem afterLastDot_eq_none {cs : List Char} :
    afterLastDot cs = none ↔ '.' ∉ cs := by
  induction cs with
  | nil => simp [afterLastDot]
  | cons c rest ih =>
    rw [afterLastDot]
    cases h : afterLastDot rest with
    | some t =>
      simp only [List.mem_cons]
      constructor
      · intro hx
        cases hx
      · intro hx
        exact absurd (ih.2 (fun hm => hx (Or.inr hm))) (by simp [h])
    | none =>
      by_cases hc : c = '.'
      · simp [hc]
      · simp only [if_neg hc, List.mem_cons, true_iff]
        intro hx
        rcases hx with hx | hx
        · exact hc hx.symm
        · exact (ih.1 h) hx

/-- The suffix after the last dot, characterized by decomposition: it is
`t` exactly when the list splits as `pre ++ '.' :: t` with no dot in
`t`. -/
theorem afterLastDot_eq_some {cs : List Char} {t : List Char} :
    afterLastDot cs = some t ↔ ∃ pre, cs = pre ++ '.' :: t ∧ '.' ∉ t := by
  induction cs generalizing t with
  | nil =>
    simp only [afterLastDot]
    constructor
    · intro hx
      cases hx
    · rintro ⟨pre, hdec, -⟩
      exact absurd hdec.symm (by simp)
  | cons c rest ih =>
    rw [afterLastDot]
    cases h : afterLastDot rest with
    | some u =>
      constructor
      · intro hu
        have hut : u = t := by simpa using hu
        rcases ih.1 (hut ▸ h) with ⟨pre0, hdec, hnd⟩
        exact ⟨c :: pre0, by rw [List.cons_append, ← hdec], hnd⟩
      · rintro ⟨pre, hdec, hnd⟩
        cases pre with
        | nil =>
          simp only [List.nil_append, List.cons.injEq] at hdec
          have : afterLastDot rest = none := afterLastDot_eq_none.2 (hdec.2 ▸ hnd)
          rw [this] at h
          cases h
        | cons c1 pre1 =>
          simp only [List.cons_append, List.cons.injEq] at hdec
          have : afterLastDot rest = some t := ih.2 ⟨pre1, hdec.2, hnd⟩
          rw [this] at h
          simpa using h.symm
    | none =>
      by_cases hc : c = '.'
      · subst hc
        simp only [if_pos rfl]
        constructor
        · intro hu
          have : rest = t := by simpa using hu
          subst this
          exact ⟨[], rfl, afterLastDot_eq_none.1 h⟩
        · rintro ⟨pre, hdec, hnd⟩
          cases pre with
          | nil =>
            simp only [List.nil_append, List.cons.injEq] at hdec
            simp [hdec.2]
          | cons c1 pre1 =>
            simp only [List.cons_append, List.cons.injEq] at hdec
            have hmem : '.' ∈ rest := by
              rw [hdec.2]
              exact List.mem_append.2 (Or.inr (List.mem_cons_self _ _))
            exact absurd hmem (afterLastDot_eq_none.1 h)
      · rw [if_neg hc]
        constructor
        · intro hx
          cases hx
        · rintro ⟨pre, hdec, hnd⟩
          cases pre with
          | nil =>
            simp only [List.nil_append, List.cons.injEq] at hdec
            exact absurd hdec.1 hc
          | cons c1 pre1 =>
            simp only [List.cons_append, List.cons.injEq] at hdec
            have hmem : '.' ∈ rest := by
              rw [hdec.2]
              exact List.mem_append.2 (Or.inr (List.mem_cons_self _ _))
            exact absurd hmem (afterLastDot_eq_none.1 h)

/-- Characterization of the embedded `Path::extension`: it returns some
string exactly when the file name splits as a nonempty stem, a dot, and
a dot-free suffix, and then the extension is that suffix. -/
theorem extension_eq_some {path e : String} :
    extension path = some e ↔
    ∃ name stem ext, fileName path = some name ∧
      name.toList = stem ++ '.' :: ext ∧ '.' ∉ ext ∧ stem ≠ [] ∧
      e = String.mk ext := by
  unfold extension
  cases hf : fileName path with
  | none => simp
  | some name =>
    simp only [Option.some.injEq]
    cases hn : name.toList with
    | nil =>
      simp only []
      constructor
      · intro hx
        cases hx
      · rintro ⟨n2, stem, ext, hn2, hdec, -, -, -⟩
        obtain rfl : name = n2 := hn2
        rw [hn] at hdec
        exact absurd hdec.symm (by simp)
    | cons c0 rest =>
      simp only []
      by_cases hc0 : c0 = '.'
      · subst hc0
        have hif : (if ('.' : Char) = '.' then rest else '.' :: rest) = rest :=
          if_pos rfl
        rw [hif, Option.map_eq_some']
        constructor
        · rintro ⟨t, ha, rfl⟩
          rcases afterLastDot_eq_some.1 ha with ⟨pre, hdec, hnd⟩
          exact ⟨name, '.' :: pre, t, rfl,
            by rw [hn, hdec, List.cons_append], hnd, by simp, rfl⟩
        · rintro ⟨n2, stem, ext, hn2, hdec, hnd, hne, he⟩
          obtain rfl : name = n2 := hn2
          rw [hn] at hdec
          cases stem with
          | nil => exact absurd rfl hne
          | cons s0 stem1 =>
            rw [List.cons_append] at hdec
            injection hdec with h1 h2
            exact ⟨ext, afterLastDot_eq_some.2 ⟨stem1, h2, hnd⟩, he.symm⟩
      · rw [if_neg hc0, Option.map_eq_some']
        constructor
        · rintro ⟨t, ha, rfl⟩
          rcases afterLastDot_eq_some.1 ha with ⟨pre, hdec, hnd⟩
          have hpre : pre ≠ [] := by
            intro hnil
            rw [hnil, List.nil_append] at hdec
            injection hdec with h1 h2
            exact hc0 h1
          exact ⟨name, pre, t, rfl, by rw [hn, hdec], hnd, hpre, rfl⟩
        · rintro ⟨n2, stem, ext, hn2, hdec, hnd, hne, he⟩
          obtain rfl : name = n2 := hn2
          rw [hn] at hdec
          exact ⟨ext, afterLastDot_eq_some.2 ⟨stem, hdec, hnd⟩, he.symm⟩

/-- Claim C6 counterexample: for the dotfile `.txt` the claim's own
extension definition yields `txt`, hence acceptance, but the code
rejects it — Rust `Path::extension` gives a dotfile no extension. -/
theorem claim_C6_counterexample :
    is_target_claimed ["txt"] ".txt" = true ∧
    ExtensionFileFilter.is_target ["txt"] ".txt" = false := by
  exact ⟨by decide, by decide⟩

/-- Claim C6 amended: `is_target(path)` is true iff the final path
component (after `std::path` normalization) splits as a nonempty stem,
a dot, and a dot-free extension whose string form is in the configured
allow-list (case-sensitively); a component without such a split — in
particular a dotfile `.ext` — has no extension and is rejected. -/
theorem claim_C6_amended (allowed : List String) (path : String) :
    ExtensionFileFilter.is_target allowed path = true ↔
    ∃ name stem ext, fileName path = some name ∧
      name.toList = stem ++ '.' :: ext ∧ '.' ∉ ext ∧ stem ≠ [] ∧
      String.mk ext ∈ allowed := by
  unfold ExtensionFileFilter.is_target
  cases hx : extension path with
  | none =>
    constructor
    · intro h
      cases h
    · rintro ⟨name, stem, ext, hnm, hdec, hnd, hne, hmem⟩
      have h2 : extension path = some (String.mk ext) :=
        extension_eq_some.2 ⟨name, stem, ext, hnm, hdec, hnd, hne, rfl⟩
      rw [hx] at h2
      cases h2
  | some e =>
    rcases extension_eq_some.1 hx with ⟨name, stem, ext, hnm, hdec, hnd, hne, he⟩
    subst he
    constructor
    · intro hct
      exact ⟨name, stem, ext, hnm, hdec, hnd, hne, by simpa using hct⟩
    · rintro ⟨name2, stem2, ext2, hnm2, hdec2, hnd2, hne2, hmem2⟩
      have h2 : extension path = some (String.mk ext2) :=
        extension_eq_some.2 ⟨name2, stem2, ext2, hnm2, hdec2, hnd2, hne2, rfl⟩
      rw [hx] at h2
      have h3 : String.mk ext = String.mk ext2 := by
        injection h2
      rw [h3]
      simpa using hmem2

/-- Claim C6 witness: `foo.txt` decomposes with stem `foo` and extension
`txt`, so the filter configured with txt accepts it. -/
theorem claim_C6_witness :
    ExtensionFileFilter.is_target ["txt"] "foo.txt" = true := by
  exact (claim_C6_amended ["txt"] "foo.txt").2
    ⟨"foo.txt", ['f', 'o', 'o'], ['t', 'x', 't'], by decide, by decide,
      by decide, by decide, by decide⟩

/- ===================== claim C8 ===================== -/

/-- If the first success is at offset `m` from the current attempt (all
earlier attempts fail) and the retry budget allows it, the loop returns
that content after `m` sleeps of 10·(attempt number) ms each. -/
theorem retryAux_first_ok (fs : Nat → Except String String) (M : Nat) :
    ∀ m rem att c, m ≤ rem → fs (att + m) = Except.ok c →
    (∀ j, j < m → ∃ e, fs (att + j) = Except.error e) →
    retryAux fs M att rem =
      (Except.ok c, (List.range m).map (fun j => 10 * (att + j + 1)), att + m + 1) := by
  intro m
  induction m with
  | zero =>
    intro rem att c hle hok hj
    rw [retryAux]
    rw [Nat.add_zero] at hok
    rw [hok]
    simp
  | succ m ih =>
    intro rem att c hle hok hj
    rcases hj 0 (Nat.succ_pos m) with ⟨e0, he0⟩
    rw [Nat.add_zero] at he0
    rw [retryAux, he0]
    cases rem with
    | zero => omega
    | succ r =>
      have htail := ih r (att + 1) c (by omega)
        (by rw [show att + 1 + m = att + (m + 1) by omega]; exact hok)
        (by
          intro j hjm
          rcases hj (j + 1) (by omega) with ⟨e2, he2⟩
          exact ⟨e2, by rw [show att + 1 + j = att + (j + 1) by omega]; exact he2⟩)
      simp only [htail, Prod.mk.injEq]
      refine ⟨by trivial, ?_, by omega⟩
      rw [List.range_succ_eq_map, List.map_cons, List.map_map]
      simp only [List.cons.injEq]
      refine ⟨by norm_num, ?_⟩
      apply List.map_congr_left
      intro j hjmem
      simp only [Function.comp_apply]
      omega

/-- If every attempt in the budget fails, the loop returns the
exhaustion error carrying the last cause, after sleeping between all
consecutive attempts. -/
theorem retryAux_all_fail (fs : Nat → Except String String) (M : Nat) :
    ∀ rem att e, fs (att + rem) = Except.error e →
    (∀ j, j < rem → ∃ e2, fs (att + j) = Except.error e2) →
    retryAux fs M att rem =
      (Except.error ("Failed to read file after " ++ toString (M + 1)
          ++ " attempts: " ++ e),
        (List.range rem).map (fun j => 10 * (att + j + 1)), att + rem + 1) := by
  intro rem
  induction rem with
  | zero =>
    intro att e hlast hj
    rw [Nat.add_zero] at hlast
    rw [retryAux, hlast]
    simp
  | succ r ih =>
    intro att e hlast hj
    rcases hj 0 (Nat.succ_pos r) with ⟨e0, he0⟩
    rw [Nat.add_zero] at he0
    rw [retryAux, he0]
    have htail := ih (att + 1) e
      (by rw [show att + 1 + r = att + (r + 1) by omega]; exact hlast)
      (by
        intro j hjr
        rcases hj (j + 1) (by omega) with ⟨e2, he2⟩
        exact ⟨e2, by rw [show att + 1 + j = att + (j + 1) by omega]; exact he2⟩)
    simp only [htail, Prod.mk.injEq]
    refine ⟨by trivial, ?_, by omega⟩
    rw [List.range_succ_eq_map, List.map_cons, List.map_map]
    simp only [List.cons.injEq]
    refine ⟨by norm_num, ?_⟩
    apply List.map_congr_left
    intro j hjmem
    simp only [Function.comp_apply]
    omega

/-- Claim C8: with `max_retries = 3` (as `path_to_file` calls it), the
loop makes at most 4 read attempts; the sleeps between consecutive
attempts are 10, 20, 30 ms in order; the first successful read's content
is returned; after exhausting all attempts the error carries the last
underlying cause. -/
theorem claim_C8 (fs : Nat → Except String String) :
    (read_file_with_retry fs 3).2.2 ≤ 4 ∧
    (read_file_with_retry fs 3).2.1 =
      [10, 20, 30].take ((read_file_with_retry fs 3).2.2 - 1) ∧
    (∀ k c, k ≤ 3 → fs k = Except.ok c →
      (∀ j, j < k → ∃ e, fs j = Except.error e) →
      (read_file_with_retry fs 3).1 = Except.ok c ∧
      (read_file_with_retry fs 3).2.2 = k + 1) ∧
    (∀ e3, fs 3 = Except.error e3 →
      (∀ j, j < 3 → ∃ e, fs j = Except.error e) →
      (read_file_with_retry fs 3).1 =
        Except.error ("Failed to read file after 4 attempts: " ++ e3)) := by
  have hshape : (read_file_with_retry fs 3).2.2 ≤ 4 ∧
      (read_file_with_retry fs 3).2.1 =
        [10, 20, 30].take ((read_file_with_retry fs 3).2.2 - 1) := by
    unfold read_file_with_retry
    cases h0 : fs 0 with
    | ok c0 =>
      have hr := retryAux_first_ok fs 3 0 3 0 c0 (by omega) (by simpa using h0)
        (by intro j hj; omega)
      rw [hr]
      refine ⟨by norm_num, ?_⟩
      norm_num [List.range_succ]
    | error e0 =>
      cases h1 : fs 1 with
      | ok c1 =>
        have hr := retryAux_first_ok fs 3 1 3 0 c1 (by omega) (by simpa using h1)
          (by intro j hj; interval_cases j; exact ⟨e0, by simpa using h0⟩)
        rw [hr]
        refine ⟨by norm_num, ?_⟩
        norm_num [List.range_succ]
      | error e1 =>
        cases h2 : fs 2 with
        | ok c2 =>
          have hr := retryAux_first_ok fs 3 2 3 0 c2 (by omega) (by simpa using h2)
            (by
              intro j hj
              interval_cases j
              exacts [⟨e0, by simpa using h0⟩, ⟨e1, by simpa using h1⟩])
          rw [hr]
          refine ⟨by norm_num, ?_⟩
          norm_num [List.range_succ]
        | error e2 =>
          cases h3 : fs 3 with
          | ok c3 =>
            have hr := retryAux_first_ok fs 3 3 3 0 c3 (by omega) (by simpa using h3)
              (by
                intro j hj
                interval_cases j
                exacts [⟨e0, by simpa using h0⟩, ⟨e1, by simpa using h1⟩,
                  ⟨e2, by simpa using h2⟩])
            rw [hr]
            refine ⟨by norm_num, ?_⟩
            norm_num [List.range_succ]
          | error e3 =>
            have hr := retryAux_all_fail fs 3 3 0 e3 (by simpa using h3)
              (by
                intro j hj
                interval_cases j
                exacts [⟨e0, by simpa using h0⟩, ⟨e1, by simpa using h1⟩,
                  ⟨e2, by simpa using h2⟩])
            rw [hr]
            refine ⟨by norm_num, ?_⟩
            norm_num [List.range_succ]
  refine ⟨hshape.1, hshape.2, ?_, ?_⟩
  · intro k c hk hok hj
    have hr := retryAux_first_ok fs 3 k 3 0 c hk (by simpa using hok)
      (by intro j hjk; simpa using hj j hjk)
    unfold read_file_with_retry
    rw [hr]
    refine ⟨rfl, ?_⟩
    show 0 + k + 1 = k + 1
    omega
  · intro e3 h3 hj
    have hr := retryAux_all_fail fs 3 3 0 e3 (by simpa using h3)
      (by intro j hjk; simpa using hj j hjk)
    unfold read_file_with_retry
    rw [hr]
    have hmsg : ("Failed to read file after " ++ toString ((3 : Nat) + 1)
        ++ " attempts: ") = "Failed to read file after 4 attempts: " := by decide
    rw [show ("Failed to read file after " ++ toString ((3 : Nat) + 1)
        ++ " attempts: " ++ e3) = "Failed to read file after 4 attempts: " ++ e3 from
      by rw [← hmsg]]

/-- Claim C8 witness: a read failing twice then succeeding returns the
content on the third attempt, with sleeps 10 and 20 ms. -/
theorem claim_C8_witness :
    (read_file_with_retry
      (fun n => if n = 2 then Except.ok "hi" else Except.error "busy") 3).1 =
        Except.ok "hi" ∧
    (read_file_with_retry
      (fun n => if n = 2 then Except.ok "hi" else Except.error "busy") 3).2.2 = 3 := by
  have h := (claim_C8
    (fun n => if n = 2 then Except.ok "hi" else Except.error "busy")).2.2.1
    2 "hi" (by omega) (by decide)
    (by intro j hj; exact ⟨"busy", by interval_cases j <;> decide⟩)
  exact ⟨h.1, h.2⟩

/- ===================== claim C7 ===================== -/

/-- Once the worker loop has exited, further receive outcomes change
nothing. -/
theorem workerFold_exited (events : List RecvResult) (s : WorkerState)
    (h : s.exited = true) :
    events.foldl (fun t e => if t.exited then t else workerStep t e) s = s := by
  induction events with
  | nil => rfl
  | cons e rest ih =>
    rw [List.foldl_cons, if_pos h]
    exact ih

/-- Trace preservation of the worker loop: starting from any live state,
the flushed batches together with the final buffer hold exactly the
prior contents plus every operation received before the disconnect. -/
theorem workerFold_trace (events : List RecvResult) :
    ∀ s : WorkerState, s.exited = false →
    ((events.foldl (fun t e => if t.exited then t else workerStep t e) s).flushedBatches).flatten
      ++ (events.foldl (fun t e => if t.exited then t else workerStep t e) s).buffer
      = s.flushedBatches.flatten ++ s.buffer ++ opsUntilExit events := by
  induction events with
  | nil =>
    intro s hs
    simp [opsUntilExit]
  | cons e rest ih =>
    intro s hs
    rw [List.foldl_cons, if_neg (by simp [hs])]
    cases e with
    | received op =>
      rw [workerStep]
      by_cases hlen : MAX_BULK_OPERATION_SIZE ≤ (s.buffer ++ [op]).length
      · rw [if_pos hlen]
        rw [ih _ (by simp [hs])]
        simp [opsUntilExit, List.append_assoc]
      · rw [if_neg hlen]
        rw [ih _ (by simp [hs])]
        simp [opsUntilExit, List.append_assoc]
    | timeout =>
      rw [workerStep]
      by_cases hbuf : s.buffer.isEmpty
      · rw [if_pos hbuf]
        rw [ih _ hs]
        simp [opsUntilExit]
      · rw [if_neg hbuf]
        rw [ih _ (by simp [hs])]
        simp [opsUntilExit, List.append_assoc]
    | disconnected =>
      rw [workerStep]
      by_cases hbuf : s.buffer.isEmpty
      · rw [if_pos hbuf]
        rw [workerFold_exited _ _ (by simp)]
        simp [opsUntilExit, List.isEmpty_iff.1 hbuf]
      · rw [if_neg hbuf]
        rw [workerFold_exited _ _ (by simp)]
        simp [opsUntilExit]

/-- Claim C7: the worker loop blocks indefinitely on an empty buffer and
waits 500 ms otherwise; a received operation is pushed and the batch is
flushed when it reaches 10 operations; a timeout flushes a non-empty
buffer and does nothing on an empty one; a disconnect flushes a
non-empty buffer and exits; over any receive sequence the flushed
batches plus the remaining buffer are exactly the operations received
before the disconnect, in order. -/
theorem claim_C7 :
    (recvTimeoutMillis [] = none) ∧
    (∀ buffer : List FileOperation, buffer ≠ [] →
      recvTimeoutMillis buffer = some 500) ∧
    (∀ s op, (s.buffer ++ [op]).length < MAX_BULK_OPERATION_SIZE →
      workerStep s (RecvResult.received op) = { s with buffer := s.buffer ++ [op] }) ∧
    (∀ s op, MAX_BULK_OPERATION_SIZE ≤ (s.buffer ++ [op]).length →
      workerStep s (RecvResult.received op) =
        { s with buffer := [],
                 flushedBatches := s.flushedBatches ++ [s.buffer ++ [op]] }) ∧
    (∀ s, s.buffer = [] → workerStep s RecvResult.timeout = s) ∧
    (∀ s, s.buffer ≠ [] → workerStep s RecvResult.timeout =
      { s with buffer := [], flushedBatches := s.flushedBatches ++ [s.buffer] }) ∧
    (∀ s, (workerStep s RecvResult.disconnected).exited = true) ∧
    (∀ s, s.buffer ≠ [] → (workerStep s RecvResult.disconnected).flushedBatches =
      s.flushedBatches ++ [s.buffer]) ∧
    (∀ events, ((workerRun events).flushedBatches).flatten ++ (workerRun events).buffer
      = opsUntilExit events) := by
  refine ⟨rfl, ?_, ?_, ?_, ?_, ?_, ?_, ?_, ?_⟩
  · intro buffer hb
    unfold recvTimeoutMillis
    rw [if_neg (by simpa [List.isEmpty_iff] using hb)]
    rfl
  · intro s op hlen
    rw [workerStep, if_neg (by omega)]
  · intro s op hlen
    rw [workerStep, if_pos hlen]
  · intro s hbuf
    rw [workerStep, if_pos (by simp [hbuf])]
  · intro s hbuf
    rw [workerStep, if_neg (by simpa [List.isEmpty_iff] using hbuf)]
  · intro s
    rw [workerStep]
    by_cases hbuf : s.buffer.isEmpty
    · rw [if_pos hbuf]
    · rw [if_neg hbuf]
  · intro s hbuf
    rw [workerStep, if_neg (by simpa [List.isEmpty_iff] using hbuf)]
  · intro events
    unfold workerRun
    rw [workerFold_trace events _ rfl]
    simp

/-- Claim C7 witness: ten received operations flush exactly one batch of
ten with an empty remaining buffer, and a non-empty buffer picks the
500 ms receive timeout. -/
theorem claim_C7_witness :
    recvTimeoutMillis [FileOperation.fileDeleted "a.txt"] = some 500 ∧
    ((workerRun (List.replicate 10
        (RecvResult.received (FileOperation.fileDeleted "a.txt")))).flushedBatches).flatten
      ++ (workerRun (List.replicate 10
        (RecvResult.received (FileOperation.fileDeleted "a.txt")))).buffer
      = opsUntilExit (List.replicate 10
        (RecvResult.received (FileOperation.fileDeleted "a.txt"))) := by
  exact ⟨claim_C7.2.1 [FileOperation.fileDeleted "a.txt"] (by decide),
    claim_C7.2.2.2.2.2.2.2.2 (List.replicate 10
      (RecvResult.received (FileOperation.fileDeleted "a.txt")))⟩

/- ===================== claim C10 ===================== -/

/-- If some element of the result list is an error and every error
carries the given message, the collect step returns exactly that
error. -/
theorem collectResults_error (l : List (Except String FileOperation)) (msg : String)
    (hex : ∃ x ∈ l, ∃ m, x = Except.error m)
    (hall : ∀ x ∈ l, ∀ m, x = Except.error m → m = msg) :
    collectResults l = Except.error msg := by
  induction l with
  | nil =>
    rcases hex with ⟨x, hx, -⟩
    cases hx
  | cons x rest ih =>
    cases x with
    | error m =>
      rw [collectResults]
      rw [hall (Except.error m) (List.mem_cons_self _ _) m rfl]
    | ok a =>
      rw [collectResults]
      have hex2 : ∃ x ∈ rest, ∃ m, x = Except.error m := by
        rcases hex with ⟨x, hx, m, hm⟩
        rcases List.mem_cons.1 hx with h | h
        · rw [h] at hm
          cases hm
        · exact ⟨x, h, m, hm⟩
      rw [ih hex2 (fun x hx m hm => hall x (List.mem_cons_of_mem _ hx) m hm)]
      rfl

/-- Every error produced by the event converter is the malformed-rename
message. -/
theorem processEvent_error_msg (isFile : String → Bool) (e : DebEvent)
    (x : Except String FileOperation) (m : String)
    (hx : x ∈ processEvent isFile e) (hm : x = Except.error m) :
    m = "Rename event missing paths" := by
  subst hm
  cases hk : e.kind <;> rw [processEvent, hk] at hx
  case create =>
    rcases List.mem_map.1 hx with ⟨p, -, hp⟩
    cases hp
  case modifyData =>
    rcases List.mem_map.1 hx with ⟨p, -, hp⟩
    cases hp
  case modifyNameBoth =>
    cases h0 : e.paths.get? 0 with
    | none =>
      rw [h0] at hx
      rcases List.mem_singleton.1 (by
        cases h1 : e.paths.get? 1 <;> rw [h1] at hx <;> exact hx) with h2
      injection h2
    | some oldp =>
      rw [h0] at hx
      cases h1 : e.paths.get? 1 with
      | none =>
        rw [h1] at hx
        rcases List.mem_singleton.1 hx with h2
        injection h2
      | some newp =>
        rw [h1] at hx
        have hx2 : Except.error m ∈
            (if isFile newp = true then
              [Except.ok (FileOperation.fileRenamed
                (normalize_notify_path oldp) (normalize_notify_path newp))]
            else [Except.ok (FileOperation.directoryRenamed
                (normalize_notify_path oldp) (normalize_notify_path newp))]) := hx
        by_cases hf : isFile newp = true
        · rw [if_pos hf] at hx2
          rcases List.mem_singleton.1 hx2 with h2
          cases h2
        · rw [if_neg hf] at hx2
          rcases List.mem_singleton.1 hx2 with h2
          cases h2
  case modifyOther => cases hx
  case removeFile =>
    rcases List.mem_map.1 hx with ⟨p, -, hp⟩
    cases hp
  case removeFolder =>
    rcases List.mem_map.1 hx with ⟨p, -, hp⟩
    cases hp
  case other => cases hx

/-- A rename event with fewer than two paths contributes the
malformed-rename error to the converted batch. -/
theorem processEvent_malformed (isFile : String → Bool) (e : DebEvent)
    (hk : e.kind = DebEventKind.modifyNameBoth) (hlen : e.paths.length < 2) :
    Except.error "Rename event missing paths" ∈ processEvent isFile e := by
  rw [processEvent, hk]
  cases h0 : e.paths.get? 0 with
  | none =>
    cases h1 : e.paths.get? 1 <;> exact List.mem_singleton.2 rfl
  | some oldp =>
    have h1 : e.paths.get? 1 = none := by
      rw [List.get?_eq_none]
      omega
    rw [h1]
    exact List.mem_singleton.2 rfl

/-- Claim C10: if any event of a debounced batch is a rename with a
missing side, `process_events` delivers none of the batch's operations
to the handler — including well-formed operations from other events —
and returns the malformed-rename error; the watcher event loop then
continues with the next batch. -/
theorem claim_C10 (isFile : String → Bool)
    (handler : FileOperation → Except String Unit) (events : List DebEvent)
    (hbad : ∃ ev ∈ events, ev.kind = DebEventKind.modifyNameBoth ∧
      ev.paths.length < 2) :
    (process_events isFile handler events).1 = [] ∧
    (process_events isFile handler events).2 =
      Except.error "Rename event missing paths" ∧
    event_loop_continues false (LoopMsg.eventsBatch events) = true := by
  rcases hbad with ⟨ev, hev, hk, hlen⟩
  have hmem : Except.error "Rename event missing paths" ∈
      events.flatMap (processEvent isFile) :=
    List.mem_flatMap.2 ⟨ev, hev, processEvent_malformed isFile ev hk hlen⟩
  have hcol : collectResults (events.flatMap (processEvent isFile)) =
      Except.error "Rename event missing paths" := by
    apply collectResults_error
    · exact ⟨_, hmem, _, rfl⟩
    · intro x hx m hm
      rcases List.mem_flatMap.1 hx with ⟨ev2, hev2, hx2⟩
      exact processEvent_error_msg isFile ev2 x m hx2 hm
  unfold process_events
  rw [hcol]
  exact ⟨rfl, rfl, rfl⟩

/-- Claim C10 witness: a batch with one well-formed create event and one
malformed rename delivers nothing and reports the error. -/
theorem claim_C10_witness :
    (process_events (fun _ => true) (fun _ => Except.ok ())
      [DebEvent.mk DebEventKind.create ["a.txt"],
       DebEvent.mk DebEventKind.modifyNameBoth ["old.txt"]]).1 = [] ∧
    (process_events (fun _ => true) (fun _ => Except.ok ())
      [DebEvent.mk DebEventKind.create ["a.txt"],
       DebEvent.mk DebEventKind.modifyNameBoth ["old.txt"]]).2 =
      Except.error "Rename event missing paths" := by
  have h := claim_C10 (fun _ => true) (fun _ => Except.ok ())
    [DebEvent.mk DebEventKind.create ["a.txt"],
     DebEvent.mk DebEventKind.modifyNameBoth ["old.txt"]]
    ⟨DebEvent.mk DebEventKind.modifyNameBoth ["old.txt"], by decide, rfl, by decide⟩
  exact ⟨h.1, h.2.1⟩

/- ===================== document counting machinery (C4, C5) ===================== -/

/-- One commit-time step changes the count of each path exactly as the
abstract trace step says. -/
theorem stCount_applyWriterOp (st : List Segment × Segment) (op : WriterOp)
    (p : String) :
    stCount (applyWriterOp st op) p = traceStep p (stCount st p) op := by
  cases op with
  | addDocument f =>
    simp only [stCount, applyWriterOp, pathCountP, traceStep]
    rw [← List.append_assoc, List.countP_append]
    by_cases hp : f.path = p
    · rw [if_pos hp]
      simp [hp]
    · rw [if_neg hp]
      simp [hp]
  | deleteTerm q =>
    simp only [stCount, applyWriterOp, pathCountP, traceStep]
    rw [← List.map_flatten, ← List.map_append]
    rw [List.countP_map]
    by_cases hqp : q = p
    · subst hqp
      rw [if_pos rfl]
      rw [List.countP_eq_zero.2]
      intro d hd
      by_cases hdq : d.file.path = q <;>
        simp [killDoc, Function.comp, hdq]
    · rw [if_neg hqp]
      apply List.countP_congr
      intro d hd
      by_cases hdq : d.file.path = q <;>
        simp [killDoc, Function.comp, hdq, hqp]

/-- Folding the writer session over the commit state realizes the
abstract trace count. -/
theorem stCount_fold (ops : List WriterOp) :
    ∀ st p, stCount (ops.foldl applyWriterOp st) p = traceCount (stCount st p) ops p := by
  induction ops with
  | nil =>
    intro st p
    rfl
  | cons op rest ih =>
    intro st p
    rw [List.foldl_cons, ih]
    have h2 : traceCount (stCount st p) (op :: rest) p
        = traceCount (traceStep p (stCount st p) op) rest p := by
      simp [traceCount, List.foldl_cons]
    rw [h2, stCount_applyWriterOp]

/-- Commit with pending work: the visible count of every path afterwards
is the abstract trace applied to its previous visible count. -/
theorem pathCount_commit_pos (i : TextIndex) (p : String)
    (h : 0 < i.pending_operations) :
    pathCount (commitIndex i) p = traceCount (pathCount i p) i.writerOps p := by
  unfold commitIndex
  rw [if_pos h]
  show pathCountP p ((((i.writerOps.foldl applyWriterOp (i.segments, [])).1)
    ++ [(i.writerOps.foldl applyWriterOp (i.segments, [])).2]).flatten) = _
  rw [List.flatten_append]
  have h2 : ([(i.writerOps.foldl applyWriterOp (i.segments, [])).2] :
      List Segment).flatten = (i.writerOps.foldl applyWriterOp (i.segments, [])).2 := by
    simp
  rw [h2]
  have h3 := stCount_fold i.writerOps (i.segments, []) p
  unfold stCount at h3
  rw [h3]
  unfold pathCount
  rw [List.append_nil]

/-- Commit computes the abstract trace on every well-formed index. -/
theorem pathCount_commit (i : TextIndex) (p : String) (hwf : wfIndex i) :
    pathCount (commitIndex i) p = traceCount (pathCount i p) i.writerOps p := by
  by_cases h : 0 < i.pending_operations
  · exact pathCount_commit_pos i p h
  · have hops : i.writerOps = [] := by
      by_contra hne
      exact h (hwf hne)
    unfold commitIndex
    rw [if_neg h, hops]
    rfl

/-- The visible-path count agrees with the occurrence count in
`livePaths`. -/
theorem count_livePaths (i : TextIndex) (p : String) :
    (livePaths i).count p = pathCount i p := by
  unfold livePaths liveFiles pathCount pathCountP
  rw [List.count_eq_countP, List.countP_map, List.countP_map, List.countP_filter]
  apply List.countP_congr
  intro d hd
  simp [Function.comp, Bool.and_comm]

/- ===================== worker-state preservation lemmas ===================== -/

/-- Adding documents in a fold preserves well-formedness. -/
theorem wf_foldl_add (files : List File) :
    ∀ i : TextIndex, wfIndex i → wfIndex (files.foldl add_doc i) := by
  induction files with
  | nil => intro i h; exact h
  | cons f rest ih =>
    intro i h
    rw [List.foldl_cons]
    exact ih _ (fun _ => Nat.succ_pos _)

/-- Each flush arm preserves well-formedness of the index. -/
theorem wf_applyOp (flt : String → Bool) (ldr : Loader) (i i2 : TextIndex)
    (op : FileOperation) (h : applyOp flt ldr i op = Except.ok i2)
    (hwf : wfIndex i) : wfIndex i2 := by
  cases op with
  | fileCreated p =>
    rw [applyOp] at h
    by_cases hf : flt p
    · rw [if_pos hf] at h
      cases hl : ldr.load_file p with
      | ok f => rw [hl] at h; injection h with h; subst h; exact fun _ => Nat.succ_pos _
      | error e => rw [hl] at h; cases h
    · rw [if_neg hf] at h
      injection h with h
      subst h
      exact hwf
  | fileModified p =>
    rw [applyOp] at h
    by_cases hf : flt p
    · rw [if_pos hf] at h
      cases hl : ldr.load_file p with
      | ok f => rw [hl] at h; injection h with h; subst h; exact fun _ => Nat.succ_pos _
      | error e => rw [hl] at h; cases h
    · rw [if_neg hf] at h
      injection h with h
      subst h
      exact hwf
  | fileDeleted p =>
    rw [applyOp] at h
    injection h with h
    subst h
    exact fun _ => Nat.succ_pos _
  | fileRenamed op2 np =>
    rw [applyOp] at h
    cases ho : flt op2 <;> cases hn : flt np <;> rw [ho, hn] at h
    · injection h with h
      subst h
      exact hwf
    · cases hl : ldr.load_file np with
      | ok f => rw [hl] at h; injection h with h; subst h; exact fun _ => Nat.succ_pos _
      | error e => rw [hl] at h; cases h
    · injection h with h
      subst h
      exact fun _ => Nat.succ_pos _
    · cases hl : ldr.load_file np with
      | ok f => rw [hl] at h; injection h with h; subst h; exact fun _ => Nat.succ_pos _
      | error e => rw [hl] at h; cases h
  | directoryDeleted p =>
    rw [applyOp] at h
    injection h with h
    subst h
    intro hops
    unfold delete_docs_by_path_prefix
    by_cases hlen : 0 < (matchingTerms i p).length
    · simp only [if_pos hlen]
      omega
    · simp only [if_neg hlen]
      have hts : matchingTerms i p = [] := by
        cases hmt : matchingTerms i p with
        | nil => rfl
        | cons a l => rw [hmt] at hlen; exact absurd (Nat.succ_pos _) hlen
      apply hwf
      intro hnil
      apply hops
      show (( delete_docs_by_path_prefix i p).1).writerOps = []
      unfold delete_docs_by_path_prefix
      simp only [hts]
      simpa using hnil
  | directoryRenamed op2 np =>
    rw [applyOp] at h
    injection h with h
    subst h
    apply wf_foldl_add
    intro hops
    unfold delete_docs_by_path_prefix
    by_cases hlen : 0 < (matchingTerms i op2).length
    · simp only [if_pos hlen]
      omega
    · simp only [if_neg hlen]
      have hts : matchingTerms i op2 = [] := by
        cases hmt : matchingTerms i op2 with
        | nil => rfl
        | cons a l => rw [hmt] at hlen; exact absurd (Nat.succ_pos _) hlen
      apply hwf
      intro hnil
      apply hops
      show (( delete_docs_by_path_prefix i op2).1).writerOps = []
      unfold delete_docs_by_path_prefix
      simp only [hts]
      simpa using hnil

/-- The flush loop preserves well-formedness (also on the state kept
after an aborting error). -/
theorem wf_processOps (flt : String → Bool) (ldr : Loader) :
    ∀ ops i i2 r, processOps flt ldr i ops = (i2, r) → wfIndex i → wfIndex i2 := by
  intro ops
  induction ops with
  | nil =>
    intro i i2 r h hwf
    rw [processOps] at h
    injection h with h1 h2
    subst h1
    exact hwf
  | cons op rest ih =>
    intro i i2 r h hwf
    rw [processOps] at h
    cases ha : applyOp flt ldr i op with
    | ok j =>
      rw [ha] at h
      exact ih j i2 r h (wf_applyOp flt ldr i j op ha hwf)
    | error e =>
      rw [ha] at h
      injection h with h1 h2
      subst h1
      exact hwf

/-- Fold-adding documents never touches the committed segments. -/
theorem segments_foldl_add (files : List File) :
    ∀ i : TextIndex, (files.foldl add_doc i).segments = i.segments := by
  induction files with
  | nil => intro i; rfl
  | cons f rest ih =>
    intro i
    rw [List.foldl_cons, ih]
    rfl

/-- No flush arm touches the committed segments (mutations only join the
writer session until the commit). -/
theorem segments_applyOp (flt : String → Bool) (ldr : Loader) (i i2 : TextIndex)
    (op : FileOperation) (h : applyOp flt ldr i op = Except.ok i2) :
    i2.segments = i.segments := by
  cases op with
  | fileCreated p =>
    rw [applyOp] at h
    by_cases hf : flt p
    · rw [if_pos hf] at h
      cases hl : ldr.load_file p with
      | ok f => rw [hl] at h; injection h with h; subst h; rfl
      | error e => rw [hl] at h; cases h
    · rw [if_neg hf] at h
      injection h with h
      subst h
      rfl
  | fileModified p =>
    rw [applyOp] at h
    by_cases hf : flt p
    · rw [if_pos hf] at h
      cases hl : ldr.load_file p with
      | ok f => rw [hl] at h; injection h with h; subst h; rfl
      | error e => rw [hl] at h; cases h
    · rw [if_neg hf] at h
      injection h with h
      subst h
      rfl
  | fileDeleted p =>
    rw [applyOp] at h
    injection h with h
    subst h
    rfl
  | fileRenamed op2 np =>
    rw [applyOp] at h
    cases ho : flt op2 <;> cases hn : flt np <;> rw [ho, hn] at h
    · injection h with h
      subst h
      rfl
    · cases hl : ldr.load_file np with
      | ok f => rw [hl] at h; injection h with h; subst h; rfl
      | error e => rw [hl] at h; cases h
    · injection h with h
      subst h
      rfl
    · cases hl : ldr.load_file np with
      | ok f => rw [hl] at h; injection h with h; subst h; rfl
      | error e => rw [hl] at h; cases h
  | directoryDeleted p =>
    rw [applyOp] at h
    injection h with h
    subst h
    rfl
  | directoryRenamed op2 np =>
    rw [applyOp] at h
    injection h with h
    subst h
    rw [segments_foldl_add]
    rfl

/-- The flush loop never touches the committed segments. -/
theorem segments_processOps (flt : String → Bool) (ldr : Loader) :
    ∀ ops i i2 r, processOps flt ldr i ops = (i2, r) → i2.segments = i.segments := by
  intro ops
  induction ops with
  | nil =>
    intro i i2 r h
    rw [processOps] at h
    injection h with h1 h2
    subst h1
    rfl
  | cons op rest ih =>
    intro i i2 r h
    rw [processOps] at h
    cases ha : applyOp flt ldr i op with
    | ok j =>
      rw [ha] at h
      rw [ih j i2 r h, segments_applyOp flt ldr i j op ha]
    | error e =>
      rw [ha] at h
      injection h with h1 h2
      subst h1
      rfl

/- ===================== claim C5 ===================== -/

/-- Claim C5 counterexample: a batch containing two `FileCreated`
operations for the same filter-passing path leaves the drained,
committed index with two documents sharing that `file_path` — `add_doc`
is a plain `add_document` with no per-key de-duplication. -/
theorem claim_C5_counterexample :
    livePaths (process_operations fltTxt ldrConst emptyIndex
      [FileOperation.fileCreated "a.txt", FileOperation.fileCreated "a.txt"]).1
      = ["a.txt", "a.txt"] ∧
    ¬ (livePaths (process_operations fltTxt ldrConst emptyIndex
      [FileOperation.fileCreated "a.txt", FileOperation.fileCreated "a.txt"]).1).Nodup := by
  exact ⟨by decide, by decide⟩

/-- Claim C5 amended: after the worker drains a batch and commits, no
two documents share a `file_path`, provided every path's insertion tally
is at most one: prior committed copies (zeroed by any `delete_term` of
that path in the session) plus session additions after the last such
delete.  A sequence with two `FileCreated` operations for one
filter-passing path violates the proviso and leaves duplicate
documents, so the unconditional claim is false. -/
theorem claim_C5_amended (flt : String → Bool) (ldr : Loader) (i i2 : TextIndex)
    (ops : List FileOperation) (hwf : wfIndex i)
    (hrun : processOps flt ldr i ops = (i2, Except.ok ()))
    (hbound : ∀ p, traceCount (pathCount i p) i2.writerOps p ≤ 1) :
    (livePaths (commitIndex i2)).Nodup := by
  have hwf2 : wfIndex i2 := wf_processOps flt ldr ops i i2 _ hrun hwf
  have hseg : i2.segments = i.segments := segments_processOps flt ldr ops i i2 _ hrun
  rw [List.nodup_iff_count_le_one]
  intro p
  rw [count_livePaths, pathCount_commit i2 p hwf2]
  have hpc : pathCount i2 p = pathCount i p := by
    unfold pathCount
    rw [hseg]
  rw [hpc]
  exact hbound p

/-- Claim C5 witness: a single create of a fresh path keeps the index
duplicate-free after the commit. -/
theorem claim_C5_witness :
    (livePaths (commitIndex uncommittedA)).Nodup := by
  apply claim_C5_amended fltTxt ldrConst emptyIndex uncommittedA
    [FileOperation.fileCreated "a.txt"]
  · intro h
    exact absurd rfl h
  · decide
  · intro p
    show traceCount (pathCount emptyIndex p)
      [WriterOp.addDocument (File.mk "a.txt" "alpha beta")] p ≤ 1
    have h0 : pathCount emptyIndex p = 0 := rfl
    rw [h0]
    unfold traceCount
    rw [List.foldl_cons, List.foldl_nil]
    simp only [traceStep]
    by_cases hp : ("a.txt" : String) = p
    · rw [if_pos hp]
    · rw [if_neg hp]
      omega

/- ===================== claim C4 ===================== -/

/-- A pure `delete_term` suffix keeps a zero count at zero. -/
theorem traceCount_deletes_zero (ts : List String) :
    ∀ p, traceCount 0 (ts.map WriterOp.deleteTerm) p = 0 := by
  induction ts with
  | nil => intro p; rfl
  | cons q rest ih =>
    intro p
    rw [List.map_cons]
    unfold traceCount
    rw [List.foldl_cons]
    simp only [traceStep]
    by_cases hq : q = p
    · rw [if_pos hq]
      exact ih p
    · rw [if_neg hq]
      exact ih p

/-- A `delete_term` batch covering the path zeroes its count whatever it
was before. -/
theorem traceCount_deletes_mem (ts : List String) :
    ∀ n p, p ∈ ts → traceCount n (ts.map WriterOp.deleteTerm) p = 0 := by
  induction ts with
  | nil =>
    intro n p hp
    cases hp
  | cons q rest ih =>
    intro n p hp
    rw [List.map_cons]
    unfold traceCount
    rw [List.foldl_cons]
    simp only [traceStep]
    by_cases hq : q = p
    · rw [if_pos hq]
      exact traceCount_deletes_zero rest p
    · rw [if_neg hq]
      rcases List.mem_cons.1 hp with h | h
      · exact absurd h.symm hq
      · exact ih n p h

/-- A visible document's path is enumerated by the prefix scan whenever
it starts with the prefix: the term is in its segment's dictionary. -/
theorem mem_matchingTerms_of_live (i : TextIndex) (pre : String) (f : File)
    (hf : f ∈ liveFiles i) (hpre : strStartsWith f.path pre = true) :
    f.path ∈ matchingTerms i pre := by
  unfold liveFiles at hf
  rcases List.mem_map.1 hf with ⟨d, hd, hdf⟩
  rcases List.mem_filter.1 hd with ⟨hd2, hdalive⟩
  rcases List.mem_flatten.1 hd2 with ⟨s, hs, hds⟩
  unfold matchingTerms
  apply List.mem_flatMap.2
  refine ⟨s, hs, ?_⟩
  apply List.mem_filter.2
  constructor
  · unfold termDict
    apply List.mem_dedup.2
    exact List.mem_map.2 ⟨d, hds, by rw [hdf]⟩
  · exact hpre

/-- Claim C4 amended: `delete_docs_by_path_prefix` enumerates the
committed term dictionaries, returns the number of matching terms and
grows `pending` by it without touching the segments; every document
visible in the committed segments whose path starts with the prefix is
gone after the commit.  Documents added earlier in the same uncommitted
batch live only in the writer session, are invisible to the fresh
reader's term dictionaries, and therefore survive unless their path
coincides with a committed matching term — the claim's same-batch
clause is false. -/
theorem claim_C4_amended (i : TextIndex) (pre : String) :
    ( delete_docs_by_path_prefix i pre).2 = (matchingTerms i pre).length ∧
    ( delete_docs_by_path_prefix i pre).1.pending_operations
      = i.pending_operations + (matchingTerms i pre).length ∧
    ( delete_docs_by_path_prefix i pre).1.segments = i.segments ∧
    (∀ f, f ∈ liveFiles i → strStartsWith f.path pre = true →
      pathCount (commitIndex ( delete_docs_by_path_prefix i pre).1) f.path = 0) := by
  refine ⟨rfl, ?_, rfl, ?_⟩
  · show (if 0 < (matchingTerms i pre).length
        then i.pending_operations + (matchingTerms i pre).length
        else i.pending_operations)
      = i.pending_operations + (matchingTerms i pre).length
    by_cases h : 0 < (matchingTerms i pre).length
    · rw [if_pos h]
    · rw [if_neg h]
      omega
  · intro f hf hpre
    have hmem : f.path ∈ matchingTerms i pre := mem_matchingTerms_of_live i pre f hf hpre
    have hlen : 0 < (matchingTerms i pre).length := List.length_pos.2 (by
      intro hnil
      rw [hnil] at hmem
      cases hmem)
    have hpend : 0 < (( delete_docs_by_path_prefix i pre).1).pending_operations := by
      show 0 < (if 0 < (matchingTerms i pre).length
        then i.pending_operations + (matchingTerms i pre).length
        else i.pending_operations)
      rw [if_pos hlen]
      omega
    rw [pathCount_commit_pos _ _ hpend]
    have hops : (( delete_docs_by_path_prefix i pre).1).writerOps
        = i.writerOps ++ (matchingTerms i pre).map WriterOp.deleteTerm := rfl
    have hseg : pathCount ( delete_docs_by_path_prefix i pre).1 f.path
        = pathCount i f.path := rfl
    rw [hops, hseg]
    unfold traceCount
    rw [List.foldl_append]
    exact traceCount_deletes_mem (matchingTerms i pre) _ f.path hmem

/-- Claim C4 counterexample: starting from an empty index, the batch
`[FileCreated "/d/a.txt", DirectoryDeleted "/d"]` commits with the
document at `/d/a.txt` still visible: the prefix delete saw only the
(empty) committed segments, not the add pending in the same batch. -/
theorem claim_C4_counterexample :
    livePaths (process_operations fltTxt ldrConst emptyIndex
      [FileOperation.fileCreated "/d/a.txt",
       FileOperation.directoryDeleted "/d"]).1 = ["/d/a.txt"] ∧
    strStartsWith "/d/a.txt" "/d" = true := by
  exact ⟨by decide, by decide⟩

/-- Claim C4 witness: with one committed document under `/d`, deleting
by the prefix `/d` and committing removes it. -/
theorem claim_C4_witness :
    pathCount (commitIndex ( delete_docs_by_path_prefix oneDocIdx "/d").1)
      "/d/a.txt" = 0 := by
  exact (claim_C4_amended oneDocIdx "/d").2.2.2
    (File.mk "/d/a.txt" "alpha beta") (by decide) (by decide)

/- ===================== claim C1 ===================== -/

/-- The flush loop on a batch whose prefix succeeds and whose next
operation fails: it stops at the failure, keeping the prefix's effects
and ignoring everything after. -/
theorem processOps_append_error (flt : String → Bool) (ldr : Loader) :
    ∀ (pre : List FileOperation) (i j : TextIndex) (op : FileOperation)
      (post : List FileOperation) (e : String),
    processOps flt ldr i pre = (j, Except.ok ()) →
    applyOp flt ldr j op = Except.error e →
    processOps flt ldr i (pre ++ op :: post) = (j, Except.error e) := by
  intro pre
  induction pre with
  | nil =>
    intro i j op post e h1 h2
    rw [processOps] at h1
    injection h1 with h1a h1b
    subst h1a
    rw [List.nil_append, processOps, h2]
  | cons a pre2 ih =>
    intro i j op post e h1 h2
    rw [processOps] at h1
    cases ha : applyOp flt ldr i a with
    | ok i2 =>
      rw [ha] at h1
      rw [List.cons_append, processOps, ha]
      exact ih i2 j op post e h1 h2
    | error e2 =>
      rw [ha] at h1
      injection h1 with h1a h1b
      cases h1b

/-- Claim C1 counterexample: in the batch
`[FileCreated "a.txt", FileCreated "b.txt"]` the load of `a.txt` fails;
the flush aborts with that error, `b.txt` is never applied, and no
commit happens — the index stays empty instead of containing `b.txt`. -/
theorem claim_C1_counterexample :
    process_operations fltTxt ldrFailA emptyIndex
      [FileOperation.fileCreated "a.txt", FileOperation.fileCreated "b.txt"]
      = (emptyIndex, Except.error "permission denied") ∧
    livePaths (process_operations fltTxt ldrFailA emptyIndex
      [FileOperation.fileCreated "a.txt", FileOperation.fileCreated "b.txt"]).1
      = [] := by
  exact ⟨by decide, by decide⟩

/-- Claim C1 amended: when `load_file` fails on an operation (after its
retries), the error propagates out of the flush through `?`: the
remaining operations of the batch are not applied and the batch's
commit does not happen; the index keeps the uncommitted effects of the
operations before the failing one, and the worker logs the error,
clears its buffer and continues with the next batch. -/
theorem claim_C1_amended (flt : String → Bool) (ldr : Loader)
    (pre : List FileOperation) (i j : TextIndex) (op : FileOperation)
    (post : List FileOperation) (e : String)
    (h1 : processOps flt ldr i pre = (j, Except.ok ()))
    (h2 : applyOp flt ldr j op = Except.error e) :
    process_operations flt ldr i (pre ++ op :: post) = (j, Except.error e) := by
  unfold process_operations
  rw [processOps_append_error flt ldr pre i j op post e h1 h2]

/-- Claim C1 witness: with the load of `a.txt` failing, the batch
`[FileCreated "b.txt", FileCreated "a.txt", FileCreated "c.txt"]`
aborts after the first operation, leaving its add uncommitted and never
reaching `c.txt`. -/
theorem claim_C1_witness :
    process_operations fltTxt ldrFailA emptyIndex
      [FileOperation.fileCreated "b.txt", FileOperation.fileCreated "a.txt",
       FileOperation.fileCreated "c.txt"]
      = (uncommittedB, Except.error "permission denied") := by
  exact claim_C1_amended fltTxt ldrFailA [FileOperation.fileCreated "b.txt"]
    emptyIndex uncommittedB (FileOperation.fileCreated "a.txt")
    [FileOperation.fileCreated "c.txt"] "permission denied"
    (by decide) (by decide)
